import Mathlib

/-!
Shallow embedding of the plonky2-semaphore protocol core
(src/signal.rs, src/access_set.rs, src/circuit.rs).

The proving backend (plonky2: Poseidon permutation, Merkle-tree container,
constraint-system builder, prover/verifier) is the spec's declared external
collaborator.  The Poseidon hash is abstracted as an explicit function
parameter `hash`, shared bit-for-bit between the outside-the-circuit uses and
the in-circuit gadget, exactly as the source shares `PoseidonHash`.  The
backend's prove/verify capability is modelled from the spec (section 6):
a proof object attests exactly the public-input vector registered when it was
produced, for the circuit it was produced with.
-/

namespace Semaphore

/-- Order of the Goldilocks prime field used by the source
(`pub type F = GoldilocksField` in src/signal.rs). -/
def goldilocksP : Nat := 2 ^ 64 - 2 ^ 32 + 1

/-- Field elements (GoldilocksField). -/
abbrev F := ZMod goldilocksP

/-- A digest is exactly four field elements
(`pub type Digest = [F; 4]` in src/signal.rs). -/
structure Digest where
  e0 : F
  e1 : F
  e2 : F
  e3 : F
deriving DecidableEq

/-- The four elements of a digest, in order. -/
def Digest.toList (d : Digest) : List F := [d.e0, d.e1, d.e2, d.e3]

/-- The all-zero digest (`[F::ZERO; 4]` in the source). -/
def zeroDigest : Digest := ⟨0, 0, 0, 0⟩

/-- Hashing two digests into one: the backend's two-to-one compression,
which for Poseidon coincides with hashing the eight concatenated elements. -/
def hashTwo (hash : List F → Digest) (l r : Digest) : Digest :=
  hash (l.toList ++ r.toList)

/-- Modelled from the spec: the backend's leaf-digest rule (plonky2
`hash_or_noop`): data of at most four elements is used as the digest itself,
zero padded; longer data is hashed. -/
def hashOrNoop (hash : List F → Digest) (l : List F) : Digest :=
  if l.length ≤ 4 then ⟨l.getD 0 0, l.getD 1 0, l.getD 2 0, l.getD 3 0⟩
  else hash l

/-- Number of trailing zero bits, as Rust's `usize::trailing_zeros`
(used by `AccessSet::tree_height` in src/circuit.rs); fuel-structured so it
computes by kernel reduction. -/
def trailingZerosAux : Nat → Nat → Nat
  | 0, _ => 0
  | fuel + 1, n => if n % 2 = 1 then 0 else trailingZerosAux fuel (n / 2) + 1

/-- Rust `usize::trailing_zeros` (returns the bit width 64 on input 0). -/
def trailingZeros (n : Nat) : Nat :=
  if n = 0 then 64 else trailingZerosAux n n

/-- Root digest of a Merkle tree of depth `h` over the given leaves, split
top-down into halves, as built by the backend's `MerkleTree` container. -/
def merkleRootH (hash : List F → Digest) : Nat → List (List F) → Digest
  | 0, leaves => hashOrNoop hash (leaves.headD [])
  | h + 1, leaves =>
      hashTwo hash
        (merkleRootH hash h (leaves.take (leaves.length / 2)))
        (merkleRootH hash h (leaves.drop (leaves.length / 2)))

/-- The `capHeight`-level cap of a depth-`h` Merkle tree: the list of subtree
roots at depth `capHeight` below the root, left to right (plonky2
`MerkleCap`).  At cap height 0 this is the single root digest. -/
def merkleCapH (hash : List F → Digest) (h : Nat) :
    Nat → List (List F) → List Digest
  | 0, leaves => [merkleRootH hash h leaves]
  | k + 1, leaves =>
      merkleCapH hash (h - 1) k (leaves.take (leaves.length / 2)) ++
        merkleCapH hash (h - 1) k (leaves.drop (leaves.length / 2))

/-- Sibling digests on the authentication path of leaf `i` in a depth-`h`
tree, ordered from the leaf level up to the root. -/
def merklePathH (hash : List F → Digest) : Nat → List (List F) → Nat → List Digest
  | 0, _, _ => []
  | h + 1, leaves, i =>
      if i < leaves.length / 2 then
        merklePathH hash h (leaves.take (leaves.length / 2)) i ++
          [merkleRootH hash h (leaves.drop (leaves.length / 2))]
      else
        merklePathH hash h (leaves.drop (leaves.length / 2)) (i - leaves.length / 2) ++
          [merkleRootH hash h (leaves.take (leaves.length / 2))]

/-- Error taxonomy of the spec (section 7); Rust panics inside the backend are
embedded as returned errors of the corresponding kind. -/
inductive SemErr where
  | invalidSetSize
  | indexOutOfRange
  | proofConstruction
  | verification
deriving DecidableEq

/-- The backend Merkle-tree container: the leaf data and the cap height it was
built with (plonky2 `MerkleTree<F, PoseidonHash>`). -/
structure MerkleTree where
  leaves : List (List F)
  capHeight : Nat
deriving DecidableEq

/-- Tree depth: `leaves.len().trailing_zeros()` (src/circuit.rs `tree_height`
reads exactly this). -/
def MerkleTree.height (t : MerkleTree) : Nat := trailingZeros t.leaves.length

/-- The tree's cap (plonky2 `MerkleTree::cap`). -/
def MerkleTree.cap (hash : List F → Digest) (t : MerkleTree) : List Digest :=
  merkleCapH hash t.height t.capHeight t.leaves

/-- Modelled from the spec: the backend's `MerkleTree::prove`
(`authenticationPath` in the spec, section 4.1): requires the index to be in
range, else `IndexOutOfRangeError`; returns the sibling digests from the leaf
up to the cap. -/
def MerkleTree.prove (hash : List F → Digest) (t : MerkleTree) (i : Nat) :
    Except SemErr (List Digest) :=
  if i < t.leaves.length then
    Except.ok ((merklePathH hash t.height t.leaves i).take (t.height - t.capHeight))
  else
    Except.error SemErr.indexOutOfRange

/-- The access set: a wrapper around the backend Merkle tree whose leaves are
the public keys (`pub struct AccessSet(pub MerkleTree<F, PoseidonHash>)`). -/
structure AccessSet where
  tree : MerkleTree
deriving DecidableEq

/-- Modelled from the spec: `build(publicKeys)` (section 4.1) constructs the
tree with cap height 0 as the source does (`MerkleTree::new(public_keys, 0)`);
the backend rejects a leaf count that is not a power of two (`log2_strict`),
surfaced as `InvalidSetSizeError`. -/
def AccessSet.build (publicKeys : List (List F)) : Except SemErr AccessSet :=
  if 2 ^ trailingZeros publicKeys.length = publicKeys.length then
    Except.ok ⟨⟨publicKeys, 0⟩⟩
  else
    Except.error SemErr.invalidSetSize

/-- Height of the wrapped tree (src/circuit.rs lines 26-28). -/
def AccessSet.tree_height (a : AccessSet) : Nat := a.tree.height

/-- Least-significant-bit-first decomposition of `i` into exactly `numBits`
bits (the `split_le` gadget applied to the leaf-index target). -/
def bitsLE (numBits i : Nat) : List Bool :=
  (List.range numBits).map (fun j => i.testBit j)

/-- One step and then the rest of the in-circuit authentication-path walk
(`verify_merkle_proof`): at each level the current digest is hashed with the
sibling, on the right when the current index bit is set. -/
def walkPath (hash : List F → Digest) : Digest → List (Bool × Digest) → Digest
  | cur, [] => cur
  | cur, (b, s) :: rest =>
      walkPath hash (if b then hashTwo hash s cur else hashTwo hash cur s) rest

/-- The three public inputs of the semaphore circuit, in registration order
(src/circuit.rs lines 38-43): Merkle root, nullifier, topic. -/
structure SemaphorePublic where
  merkleRoot : Digest
  nullifier : Digest
  topic : Digest
deriving DecidableEq

/-- The private witness of the semaphore circuit: private key, leaf index,
authentication-path siblings (src/circuit.rs lines 46-57). -/
structure SemaphoreWitness where
  privateKey : Digest
  publicKeyIndex : Nat
  siblings : List Digest
deriving DecidableEq

/-- Decision procedure for the semaphore circuit's constraints over a tree of
height `h` (src/circuit.rs lines 30-93): the index target admits a `split_le`
decomposition into `h` boolean bits, there are exactly `h` sibling digests,
walking the path from the leaf `hashOrNoop (privateKey ‖ ZeroDigest)` with the
LSB-first index bits reconstructs the declared root, and the declared
nullifier equals the in-circuit `hash (privateKey ‖ topic)` element-wise. -/
def checkConstraints (hash : List F → Digest) (h : Nat)
    (pub : SemaphorePublic) (w : SemaphoreWitness) : Bool :=
  decide (w.publicKeyIndex < 2 ^ h) &&
  decide (w.siblings.length = h) &&
  decide (walkPath hash (hashOrNoop hash (w.privateKey.toList ++ zeroDigest.toList))
      ((bitsLE h w.publicKeyIndex).zip w.siblings) = pub.merkleRoot) &&
  decide (pub.nullifier = hash (w.privateKey.toList ++ pub.topic.toList))

/-- Satisfiability of the semaphore circuit's constraints. -/
def semaphoreConstraints (hash : List F → Digest) (h : Nat)
    (pub : SemaphorePublic) (w : SemaphoreWitness) : Prop :=
  checkConstraints hash h pub w = true

/-- The public-input vector as the proving side registers it: root elements,
then nullifier elements, then topic elements (src/circuit.rs lines 38-43). -/
def publicInputsOfCircuit (pub : SemaphorePublic) : List F :=
  pub.merkleRoot.toList ++ pub.nullifier.toList ++ pub.topic.toList

/-- Modelled from the spec: the backend's opaque proof object, idealized to
attest exactly the circuit (identified by its tree height) and the
public-input vector it was produced for (spec section 6). -/
structure Proof where
  circuitHeight : Nat
  publicInputs : List F
deriving DecidableEq

/-- Modelled from the spec: the verifier artifact derived from the constraint
specification, determined by the circuit's structural parameter (its tree
height). -/
structure VerifierCircuitData where
  height : Nat
deriving DecidableEq

/-- A signal: nullifier plus proof (src/signal.rs). -/
structure Signal where
  nullifier : Digest
  proof : Proof
deriving DecidableEq

/-- Modelled from the spec: the backend's prove capability (spec section 6):
produce a proof for the built constraint system under the assigned witness;
fails with `ProofConstructionError` when the witness does not satisfy the
constraints. -/
def backendProve (hash : List F → Digest) (h : Nat)
    (pub : SemaphorePublic) (w : SemaphoreWitness) : Except SemErr Proof :=
  if checkConstraints hash h pub w then
    Except.ok ⟨h, publicInputsOfCircuit pub⟩
  else
    Except.error SemErr.proofConstruction

/-- Modelled from the spec: the backend's verify capability (spec section 6):
accept exactly when the proof matches the verifier artifact and attests the
given public-input vector; otherwise `VerificationError`. -/
def backendVerify (vd : VerifierCircuitData) (p : Proof)
    (publicInputs : List F) : Except SemErr Unit :=
  if p.circuitHeight = vd.height ∧ p.publicInputs = publicInputs then
    Except.ok ()
  else
    Except.error SemErr.verification

/-- The public-input vector reconstructed by the verifying side
(src/access_set.rs lines 30-38): all cap digests flattened, then the signal's
nullifier, then the topic. -/
def AccessSet.verifierInputs (hash : List F → Digest) (a : AccessSet)
    (topic : Digest) (nullifier : Digest) : List F :=
  ((a.tree.cap hash).map Digest.toList).flatten ++ nullifier.toList ++ topic.toList

/-- Verify a signal (src/access_set.rs lines 24-45): reconstruct the
public-input vector from the set's cap, the signal's nullifier and the topic,
and delegate to the backend verifier. -/
def AccessSet.verify_signal (hash : List F → Digest) (a : AccessSet)
    (topic : Digest) (signal : Signal) (verifier_data : VerifierCircuitData) :
    Except SemErr Unit :=
  backendVerify verifier_data signal.proof (a.verifierInputs hash topic signal.nullifier)

/-- Issue a signal (src/access_set.rs lines 51-86): compute the nullifier as
`hash (privateKey ‖ topic)` with no padding, build the semaphore circuit for
the set's tree height, fill the witness targets (root from `cap.0[0]`, the
private key, topic, index, and the authentication path from the backend's
`prove`), and delegate proof production to the backend. -/
def AccessSet.make_signal (hash : List F → Digest) (a : AccessSet)
    (private_key : Digest) (topic : Digest) (public_key_index : Nat) :
    Except SemErr (Signal × VerifierCircuitData) :=
  let nullifier := hash (private_key.toList ++ topic.toList)
  let h := a.tree_height
  let root := (a.tree.cap hash).getD 0 zeroDigest
  match a.tree.prove hash public_key_index with
  | Except.error e => Except.error e
  | Except.ok siblings =>
      match backendProve hash h ⟨root, nullifier, topic⟩
          ⟨private_key, public_key_index, siblings⟩ with
      | Except.error e => Except.error e
      | Except.ok proof => Except.ok (⟨nullifier, proof⟩, ⟨h⟩)

/-- Auxiliary trailing-zeros computation is correct on powers of two given
enough fuel. -/
theorem trailingZerosAux_two_pow :
    ∀ (h fuel : Nat), h < fuel → trailingZerosAux fuel (2 ^ h) = h := by
  intro h
  induction h with
  | zero =>
    intro fuel hf
    match fuel, hf with
    | f + 1, _ => simp [trailingZerosAux]
  | succ h ih =>
    intro fuel hf
    match fuel, hf with
    | f + 1, hf =>
      have h1 : 2 ^ (h + 1) % 2 = 0 := by
        simp [Nat.pow_succ, Nat.mul_mod_left]
      have h2 : 2 ^ (h + 1) / 2 = 2 ^ h := by
        rw [Nat.pow_succ, Nat.mul_div_cancel _ (by omega)]
      simp only [trailingZerosAux, h1, h2]
      rw [if_neg (by omega), ih f (by omega)]

/-- Trailing zeros of a power of two recover the exponent. -/
theorem trailingZeros_two_pow (h : Nat) : trailingZeros (2 ^ h) = h := by
  have hpos : (2 : Nat) ^ h ≠ 0 := (Nat.pow_pos (by omega)).ne'
  unfold trailingZeros
  rw [if_neg hpos]
  exact trailingZerosAux_two_pow h (2 ^ h) (Nat.lt_two_pow h)

/-- A natural number is a fixed point of two-to-the-trailing-zeros exactly
when it is a power of two. -/
theorem pow_trailingZeros_eq_iff (n : Nat) :
    2 ^ trailingZeros n = n ↔ ∃ k, n = 2 ^ k := by
  constructor
  · intro h
    exact ⟨trailingZeros n, h.symm⟩
  · rintro ⟨k, rfl⟩
    rw [trailingZeros_two_pow]

/-- Walking a concatenated path walks the first part and then the second. -/
theorem walkPath_append (hash : List F → Digest) (c : Digest)
    (xs ys : List (Bool × Digest)) :
    walkPath hash c (xs ++ ys) = walkPath hash (walkPath hash c xs) ys := by
  induction xs generalizing c with
  | nil => rfl
  | cons x xs ih =>
    cases x
    simp only [List.cons_append, walkPath]
    exact ih _

/-- An authentication path in a depth-h tree has exactly h siblings. -/
theorem merklePathH_length (hash : List F → Digest) :
    ∀ (h : Nat) (leaves : List (List F)) (i : Nat),
      (merklePathH hash h leaves i).length = h := by
  intro h
  induction h with
  | zero => intro leaves i; rfl
  | succ h ih =>
    intro leaves i
    unfold merklePathH
    by_cases hc : i < leaves.length / 2 <;> simp [hc, ih]

/-- The bit decomposition has exactly the requested number of bits. -/
theorem bitsLE_length (numBits i : Nat) : (bitsLE numBits i).length = numBits := by
  simp [bitsLE]

/-- The most significant of the h+1 extracted bits comes last. -/
theorem bitsLE_succ (h i : Nat) :
    bitsLE (h + 1) i = bitsLE h i ++ [i.testBit h] := by
  simp [bitsLE, List.range_succ]

/-- Bits below position h only depend on the remainder modulo 2^h. -/
theorem bitsLE_mod (h i : Nat) : bitsLE h (i % 2 ^ h) = bitsLE h i := by
  unfold bitsLE
  apply List.map_congr_left
  intro j hj
  have hjh : j < h := List.mem_range.mp hj
  simp [Nat.testBit_mod_two_pow, hjh]

/-- Walking the authentication path of leaf i from the leaf digest, with the
LSB-first bits of i choosing the hashing order, reconstructs the root of the
depth-h tree. -/
theorem walkPath_merklePathH (hash : List F → Digest) :
    ∀ (h : Nat) (leaves : List (List F)) (i : Nat),
      leaves.length = 2 ^ h → i < 2 ^ h →
      walkPath hash (hashOrNoop hash (leaves.getD i []))
          ((bitsLE h i).zip (merklePathH hash h leaves i)) =
        merkleRootH hash h leaves := by
  intro h
  induction h with
  | zero =>
    intro leaves i hlen hi
    have hi0 : i = 0 := by omega
    subst hi0
    cases leaves with
    | nil => simp at hlen
    | cons x xs => simp [bitsLE, walkPath, merkleRootH, merklePathH]
  | succ h ih =>
    intro leaves i hlen hi
    have hp : (0 : Nat) < 2 ^ h := Nat.pow_pos (by omega)
    have hlen2 : leaves.length = 2 ^ h * 2 := by rw [hlen, Nat.pow_succ]
    have hi2 : i < 2 ^ h * 2 := by rw [Nat.pow_succ] at hi; exact hi
    have hhalf : leaves.length / 2 = 2 ^ h := by omega
    have htake : (leaves.take (leaves.length / 2)).length = 2 ^ h := by
      rw [List.length_take, hhalf]
      omega
    have hdrop : (leaves.drop (leaves.length / 2)).length = 2 ^ h := by
      rw [List.length_drop, hhalf]
      omega
    rw [bitsLE_succ]
    unfold merklePathH
    by_cases hc : i < leaves.length / 2
    · rw [if_pos hc]
      have hbit : i.testBit h = false := Nat.testBit_lt_two_pow (by omega)
      have hgd : (leaves.take (leaves.length / 2)).getD i [] = leaves.getD i [] := by
        simp only [List.getD_eq_getElem?_getD]
        rw [List.getElem?_take_of_lt hc]
      rw [List.zip_append (by rw [bitsLE_length, merklePathH_length])]
      rw [walkPath_append, ← hgd, ih _ i htake (by omega)]
      simp [walkPath, hbit, merkleRootH]
    · rw [if_neg hc]
      have hle : 2 ^ h ≤ i := by omega
      have hsub : i - leaves.length / 2 = i % 2 ^ h := by
        rw [hhalf]
        rw [Nat.mod_eq_sub_mod hle, Nat.mod_eq_of_lt (by omega)]
      have hbit : i.testBit h = true := by
        have hi2 : i = 2 ^ h + (i - 2 ^ h) := by omega
        rw [hi2, Nat.testBit_two_pow_add_eq,
          Nat.testBit_lt_two_pow (x := i - 2 ^ h) (by omega)]
        rfl
      have hgd : (leaves.drop (leaves.length / 2)).getD (i - leaves.length / 2) [] =
          leaves.getD i [] := by
        have hidx : leaves.length / 2 + (i - leaves.length / 2) = i := by omega
        simp only [List.getD_eq_getElem?_getD]
        rw [List.getElem?_drop, hidx]
      rw [List.zip_append (by rw [bitsLE_length, merklePathH_length])]
      have hbits : bitsLE h i = bitsLE h (i - leaves.length / 2) := by
        rw [hsub, bitsLE_mod]
      rw [hbits, walkPath_append, ← hgd,
        ih _ (i - leaves.length / 2) hdrop (by omega)]
      simp [walkPath, hbit, merkleRootH]

/-- The leaf-digest rule is the identity on four-element digests. -/
theorem hashOrNoop_toList (hash : List F → Digest) (d : Digest) :
    hashOrNoop hash d.toList = d := rfl

/-- The leaf-digest rule hashes data longer than four elements; in particular
the circuit's eight-element leaf data privateKey ‖ ZeroDigest is hashed. -/
theorem hashOrNoop_key_pad (hash : List F → Digest) (sk : Digest) :
    hashOrNoop hash (sk.toList ++ zeroDigest.toList) =
      hash (sk.toList ++ zeroDigest.toList) := rfl

/-- Digests with equal element lists are equal. -/
theorem Digest.toList_inj {d e : Digest} (h : d.toList = e.toList) : d = e := by
  cases d
  cases e
  simpa [Digest.toList] using h

/-- Height of a tree with 2 to the h leaves and cap height 0. -/
theorem height_of_two_pow (leaves : List (List F)) (cH h : Nat)
    (hlen : leaves.length = 2 ^ h) :
    (⟨leaves, cH⟩ : MerkleTree).height = h := by
  simp [MerkleTree.height, hlen, trailingZeros_two_pow]

/-- The cap at cap height 0 is the single root digest. -/
theorem cap_zero (hash : List F → Digest) (leaves : List (List F)) (h : Nat)
    (hlen : leaves.length = 2 ^ h) :
    (⟨leaves, 0⟩ : MerkleTree).cap hash = [merkleRootH hash h leaves] := by
  unfold MerkleTree.cap
  rw [height_of_two_pow leaves 0 h hlen]
  rfl

/-- The backend path oracle on an in-range index of a full-depth tree returns
the authentication path of that leaf. -/
theorem prove_ok (hash : List F → Digest) (leaves : List (List F)) (h i : Nat)
    (hlen : leaves.length = 2 ^ h) (hi : i < 2 ^ h) :
    (⟨leaves, 0⟩ : MerkleTree).prove hash i =
      Except.ok (merklePathH hash h leaves i) := by
  unfold MerkleTree.prove
  rw [height_of_two_pow leaves 0 h hlen]
  rw [if_pos (show i < leaves.length by omega)]
  rw [Nat.sub_zero,
    List.take_of_length_le (le_of_eq (merklePathH_length hash h leaves i))]

/-- The honest witness of a registered member satisfies all the circuit's
constraints. -/
theorem checkConstraints_honest (hash : List F → Digest) (leaves : List (List F))
    (h i : Nat) (sk t : Digest)
    (hlen : leaves.length = 2 ^ h) (hi : i < 2 ^ h)
    (hleaf : leaves.getD i [] = (hash (sk.toList ++ zeroDigest.toList)).toList) :
    checkConstraints hash h
      ⟨merkleRootH hash h leaves, hash (sk.toList ++ t.toList), t⟩
      ⟨sk, i, merklePathH hash h leaves i⟩ = true := by
  unfold checkConstraints
  simp only [Bool.and_eq_true, decide_eq_true_eq]
  refine ⟨⟨⟨hi, merklePathH_length hash h leaves i⟩, ?_⟩, trivial⟩
  have hstart : hashOrNoop hash (sk.toList ++ zeroDigest.toList) =
      hashOrNoop hash (leaves.getD i []) := by
    rw [hleaf, hashOrNoop_toList, hashOrNoop_key_pad]
  rw [hstart]
  exact walkPath_merklePathH hash h leaves i hlen hi

/-- Full evaluation of make_signal for a registered member: it succeeds and
returns the nullifier hash (privateKey ‖ topic), a proof attesting the
public-input vector root ‖ nullifier ‖ topic, and the verifier artifact of
the height-h circuit. -/
theorem make_signal_spec (hash : List F → Digest) (leaves : List (List F))
    (h i : Nat) (sk t : Digest)
    (hlen : leaves.length = 2 ^ h) (hi : i < 2 ^ h)
    (hleaf : leaves.getD i [] = (hash (sk.toList ++ zeroDigest.toList)).toList) :
    AccessSet.make_signal hash ⟨⟨leaves, 0⟩⟩ sk t i =
      Except.ok
        (⟨hash (sk.toList ++ t.toList),
          ⟨h,
            (merkleRootH hash h leaves).toList ++
              (hash (sk.toList ++ t.toList)).toList ++ t.toList⟩⟩,
          ⟨h⟩) := by
  have hcheck := checkConstraints_honest hash leaves h i sk t hlen hi hleaf
  unfold AccessSet.make_signal
  simp only [AccessSet.tree_height, height_of_two_pow leaves 0 h hlen,
    cap_zero hash leaves h hlen, prove_ok hash leaves h i hlen hi,
    List.getD_cons_zero]
  unfold backendProve
  rw [if_pos hcheck]
  rfl

/-- Full evaluation of verify_signal at cap height 0: it reconstructs
root ‖ nullifier ‖ topic and delegates to the backend. -/
theorem verify_signal_spec (hash : List F → Digest) (leaves : List (List F))
    (h : Nat) (t : Digest) (sig : Signal) (vd : VerifierCircuitData)
    (hlen : leaves.length = 2 ^ h) :
    AccessSet.verify_signal hash ⟨⟨leaves, 0⟩⟩ t sig vd =
      backendVerify vd sig.proof
        ((merkleRootH hash h leaves).toList ++ sig.nullifier.toList ++ t.toList) := by
  unfold AccessSet.verify_signal AccessSet.verifierInputs
  rw [cap_zero hash leaves h hlen]
  simp

/-- The cap of any tree built with cap height 0 is its single root digest. -/
theorem cap_of_capHeight_zero (hash : List F → Digest) (t : MerkleTree)
    (hcap : t.capHeight = 0) :
    t.cap hash = [merkleRootH hash t.height t.leaves] := by
  unfold MerkleTree.cap
  rw [hcap]
  rfl

/-- Inversion of a successful make_signal: the returned nullifier is
hash (privateKey ‖ topic), the proof attests the registered public-input
vector root ‖ nullifier ‖ topic with the root taken from cap entry 0, and the
verifier artifact matches the set's tree height. -/
theorem make_signal_ok_inversion (hash : List F → Digest) (a : AccessSet)
    (sk t : Digest) (i : Nat) (sig : Signal) (vd : VerifierCircuitData)
    (hmk : a.make_signal hash sk t i = Except.ok (sig, vd)) :
    sig.nullifier = hash (sk.toList ++ t.toList) ∧
    sig.proof = ⟨a.tree_height,
      ((a.tree.cap hash).getD 0 zeroDigest).toList ++
        (hash (sk.toList ++ t.toList)).toList ++ t.toList⟩ ∧
    vd = ⟨a.tree_height⟩ := by
  simp only [AccessSet.make_signal] at hmk
  split at hmk
  · exact Except.noConfusion hmk
  · rename_i siblings hprove
    unfold backendProve at hmk
    by_cases hc : checkConstraints hash a.tree_height
        ⟨(a.tree.cap hash).getD 0 zeroDigest, hash (sk.toList ++ t.toList), t⟩
        ⟨sk, i, siblings⟩ = true
    · rw [if_pos hc] at hmk
      injection hmk with hpair
      injection hpair with hsig hvd
      subst hsig
      subst hvd
      exact ⟨rfl, rfl, rfl⟩
    · rw [if_neg hc] at hmk
      exact Except.noConfusion hmk

/-- A failed make_signal propagates the path oracle's out-of-range error. -/
theorem make_signal_out_of_range (hash : List F → Digest) (a : AccessSet)
    (sk t : Digest) (i : Nat) (hi : a.tree.leaves.length ≤ i) :
    a.make_signal hash sk t i = Except.error SemErr.indexOutOfRange := by
  simp only [AccessSet.make_signal]
  have hp : a.tree.prove hash i = Except.error SemErr.indexOutOfRange := by
    unfold MerkleTree.prove
    rw [if_neg (by omega)]
  rw [hp]

/-- The nullifier-consistency conjunct of the circuit's constraints. -/
theorem constraints_nullifier (hash : List F → Digest) (h : Nat)
    (pub : SemaphorePublic) (w : SemaphoreWitness)
    (hc : semaphoreConstraints hash h pub w) :
    pub.nullifier = hash (w.privateKey.toList ++ pub.topic.toList) := by
  unfold semaphoreConstraints checkConstraints at hc
  simp only [Bool.and_eq_true, decide_eq_true_eq] at hc
  exact hc.2

/-- The membership conjuncts of the circuit's constraints. -/
theorem constraints_membership (hash : List F → Digest) (h : Nat)
    (pub : SemaphorePublic) (w : SemaphoreWitness)
    (hc : semaphoreConstraints hash h pub w) :
    walkPath hash (hashOrNoop hash (w.privateKey.toList ++ zeroDigest.toList))
        ((bitsLE h w.publicKeyIndex).zip w.siblings) = pub.merkleRoot ∧
    w.siblings.length = h ∧ w.publicKeyIndex < 2 ^ h := by
  unfold semaphoreConstraints checkConstraints at hc
  simp only [Bool.and_eq_true, decide_eq_true_eq] at hc
  exact ⟨hc.1.2, hc.1.1.2, hc.1.1.1⟩

/-- Splitting an equality of two three-segment vectors whose first and second
segments have matching lengths. -/
theorem triple_append_inj {a b c a' b' c' : List F}
    (h : a ++ b ++ c = a' ++ b' ++ c')
    (ha : a.length = a'.length) (hb : b.length = b'.length) :
    a = a' ∧ b = b' ∧ c = c' := by
  have h1 := List.append_inj h (by simp [ha, hb])
  have h2 := List.append_inj h1.1 ha
  exact ⟨h2.1, h2.2, h1.2⟩

/-- A cap at cap height k contains exactly 2 to the k digests. -/
theorem merkleCapH_length (hash : List F → Digest) :
    ∀ (k h : Nat) (leaves : List (List F)),
      (merkleCapH hash h k leaves).length = 2 ^ k := by
  intro k
  induction k with
  | zero => intro h leaves; rfl
  | succ k ih =>
    intro h leaves
    simp only [merkleCapH, List.length_append, ih]
    omega

/-- Flattening the element lists of a list of digests yields four field
elements per digest. -/
theorem flatten_toList_length (l : List Digest) :
    (l.map Digest.toList).flatten.length = 4 * l.length := by
  induction l with
  | nil => rfl
  | cons d l ih =>
    simp only [List.map_cons, List.flatten_cons, List.length_append, ih,
      List.length_cons, Digest.toList]
    simp
    omega

/-- Logarithm base two recovers the exponent of a power of two. -/
theorem log2_two_pow (h : Nat) : Nat.log2 (2 ^ h) = h := by
  induction h with
  | zero =>
    rw [Nat.log2]
    simp
  | succ h ih =>
    have hge : 2 ^ (h + 1) ≥ 2 := by
      have : (1 : Nat) ≤ 2 ^ h := Nat.one_le_two_pow
      rw [Nat.pow_succ]
      omega
    have hdiv : 2 ^ (h + 1) / 2 = 2 ^ h := by
      rw [Nat.pow_succ, Nat.mul_div_cancel _ (by omega)]
    rw [Nat.log2, if_pos hge, hdiv, ih]

/-- A fixed concrete stand-in for the backend hash primitive, used to
instantiate the abstract hash parameter on concrete inputs. -/
def toyHash (l : List F) : Digest :=
  ⟨(l.length : F), l.getD 0 0, l.getD 1 0, l.getD 2 0⟩

/-- C1: for every AccessSet built from 2 ^ h public keys derived as
hash (privateKey ‖ ZeroDigest), every member index i below 2 ^ h and every
topic, make_signal succeeds and the returned signal and verifier data make
verify_signal succeed on the same AccessSet. -/
theorem C1_make_then_verify_roundtrip (hash : List F → Digest)
    (privateKeys : List Digest) (h i : Nat) (t : Digest) (a : AccessSet)
    (hbuild : AccessSet.build
        (privateKeys.map (fun sk => (hash (sk.toList ++ zeroDigest.toList)).toList)) =
      Except.ok a)
    (hlen : privateKeys.length = 2 ^ h) (hi : i < 2 ^ h) :
    ∃ sig vd,
      a.make_signal hash (privateKeys.getD i zeroDigest) t i = Except.ok (sig, vd) ∧
      a.verify_signal hash t sig vd = Except.ok () := by
  have hpks : (privateKeys.map
      (fun sk => (hash (sk.toList ++ zeroDigest.toList)).toList)).length = 2 ^ h := by
    simp [hlen]
  have ha : a = ⟨⟨privateKeys.map
      (fun sk => (hash (sk.toList ++ zeroDigest.toList)).toList), 0⟩⟩ := by
    unfold AccessSet.build at hbuild
    rw [if_pos (by rw [hpks, trailingZeros_two_pow])] at hbuild
    exact (Except.ok.inj hbuild).symm
  subst ha
  have hilen : i < privateKeys.length := by omega
  have hleaf : (privateKeys.map
      (fun sk => (hash (sk.toList ++ zeroDigest.toList)).toList)).getD i [] =
      (hash ((privateKeys.getD i zeroDigest).toList ++ zeroDigest.toList)).toList := by
    simp [List.getD_eq_getElem?_getD, List.getElem?_eq_getElem hilen]
  refine ⟨_, _,
    make_signal_spec hash _ h i (privateKeys.getD i zeroDigest) t hpks hi hleaf, ?_⟩
  rw [verify_signal_spec hash _ h t _ _ hpks]
  unfold backendVerify
  rw [if_pos ⟨rfl, rfl⟩]

/-- Concrete check of the C1 round trip on a one-member set. -/
theorem C1_roundtrip_witness :
    ∃ sig vd,
      AccessSet.make_signal toyHash
          ⟨⟨[zeroDigest].map
            (fun sk => (toyHash (sk.toList ++ zeroDigest.toList)).toList), 0⟩⟩
          (([zeroDigest] : List Digest).getD 0 zeroDigest) ⟨1, 2, 3, 4⟩ 0 =
        Except.ok (sig, vd) ∧
      AccessSet.verify_signal toyHash
          ⟨⟨[zeroDigest].map
            (fun sk => (toyHash (sk.toList ++ zeroDigest.toList)).toList), 0⟩⟩
          ⟨1, 2, 3, 4⟩ sig vd = Except.ok () :=
  C1_make_then_verify_roundtrip toyHash [zeroDigest] 0 0 ⟨1, 2, 3, 4⟩
    ⟨⟨[zeroDigest].map
      (fun sk => (toyHash (sk.toList ++ zeroDigest.toList)).toList), 0⟩⟩
    (by rfl) (by rfl) (by decide)

/-- C2: the public-input vector is the ordered concatenation root ‖ nullifier
(4 elements) ‖ topic (4 elements), and the vector the proving side registers
is identical to the vector verify_signal reconstructs from the cap, the
signal's nullifier and the topic. -/
theorem C2_public_input_vector_order (hash : List F → Digest) (a : AccessSet)
    (sk t : Digest) (i : Nat) (sig : Signal) (vd : VerifierCircuitData)
    (hcap : a.tree.capHeight = 0)
    (hmk : a.make_signal hash sk t i = Except.ok (sig, vd)) :
    sig.proof.publicInputs =
      ((a.tree.cap hash).getD 0 zeroDigest).toList ++
        sig.nullifier.toList ++ t.toList ∧
    sig.proof.publicInputs = a.verifierInputs hash t sig.nullifier ∧
    sig.nullifier.toList.length = 4 ∧ t.toList.length = 4 := by
  obtain ⟨hnull, hproof, hvd⟩ := make_signal_ok_inversion hash a sk t i sig vd hmk
  have hcapl : a.tree.cap hash = [merkleRootH hash a.tree.height a.tree.leaves] :=
    cap_of_capHeight_zero hash a.tree hcap
  refine ⟨?_, ?_, rfl, rfl⟩
  · rw [hproof, hnull]
  · rw [hproof, hnull]
    unfold AccessSet.verifierInputs
    rw [hcapl]
    simp

/-- Concrete check of the C2 public-input agreement on a one-member set. -/
theorem C2_public_inputs_witness :
    AccessSet.make_signal toyHash ⟨⟨[[(8 : F), 0, 0, 0]], 0⟩⟩ zeroDigest
        ⟨1, 2, 3, 4⟩ 0 =
      Except.ok
        (⟨⟨8, 0, 0, 0⟩, ⟨0, [8, 0, 0, 0, 8, 0, 0, 0, 1, 2, 3, 4]⟩⟩, ⟨0⟩) ∧
    ((⟨⟨8, 0, 0, 0⟩, ⟨0, [8, 0, 0, 0, 8, 0, 0, 0, 1, 2, 3, 4]⟩⟩ : Signal).proof.publicInputs =
      (((⟨⟨[[(8 : F), 0, 0, 0]], 0⟩⟩ : AccessSet).tree.cap toyHash).getD 0 zeroDigest).toList ++
        (⟨⟨8, 0, 0, 0⟩, ⟨0, [8, 0, 0, 0, 8, 0, 0, 0, 1, 2, 3, 4]⟩⟩ : Signal).nullifier.toList ++
        (⟨1, 2, 3, 4⟩ : Digest).toList ∧
    (⟨⟨8, 0, 0, 0⟩, ⟨0, [8, 0, 0, 0, 8, 0, 0, 0, 1, 2, 3, 4]⟩⟩ : Signal).proof.publicInputs =
      AccessSet.verifierInputs toyHash ⟨⟨[[(8 : F), 0, 0, 0]], 0⟩⟩ ⟨1, 2, 3, 4⟩
        (⟨⟨8, 0, 0, 0⟩, ⟨0, [8, 0, 0, 0, 8, 0, 0, 0, 1, 2, 3, 4]⟩⟩ : Signal).nullifier ∧
    (⟨⟨8, 0, 0, 0⟩, ⟨0, [8, 0, 0, 0, 8, 0, 0, 0, 1, 2, 3, 4]⟩⟩ : Signal).nullifier.toList.length = 4 ∧
    (⟨1, 2, 3, 4⟩ : Digest).toList.length = 4) :=
  ⟨by rfl,
    C2_public_input_vector_order toyHash ⟨⟨[[(8 : F), 0, 0, 0]], 0⟩⟩ zeroDigest
      ⟨1, 2, 3, 4⟩ 0 _ _ (by rfl) (by rfl)⟩

/-- C3: the nullifier placed in the returned Signal equals
hash (privateKey ‖ topic) computed with no padding, the same
(privateKey, topic) pair always yields the same nullifier (also across
different sets and indices), and the circuit constrains the declared public
nullifier to equal the in-circuit hash (privateKey ‖ topic). -/
theorem C3_nullifier_hash (hash : List F → Digest) (a b : AccessSet)
    (sk t : Digest) (i j : Nat) (sig sig2 : Signal) (vd vd2 : VerifierCircuitData)
    (h : Nat) (pub : SemaphorePublic) (w : SemaphoreWitness)
    (hmk : a.make_signal hash sk t i = Except.ok (sig, vd))
    (hmk2 : b.make_signal hash sk t j = Except.ok (sig2, vd2))
    (hcon : semaphoreConstraints hash h pub w) :
    sig.nullifier = hash (sk.toList ++ t.toList) ∧
    sig2.nullifier = sig.nullifier ∧
    pub.nullifier = hash (w.privateKey.toList ++ pub.topic.toList) := by
  obtain ⟨h1, -, -⟩ := make_signal_ok_inversion hash a sk t i sig vd hmk
  obtain ⟨h2, -, -⟩ := make_signal_ok_inversion hash b sk t j sig2 vd2 hmk2
  exact ⟨h1, by rw [h1, h2], constraints_nullifier hash h pub w hcon⟩

/-- Concrete check of the C3 nullifier facts on a one-member set. -/
theorem C3_nullifier_witness :
    (⟨⟨8, 0, 0, 0⟩, ⟨0, [8, 0, 0, 0, 8, 0, 0, 0, 1, 2, 3, 4]⟩⟩ : Signal).nullifier =
        toyHash (zeroDigest.toList ++ (⟨1, 2, 3, 4⟩ : Digest).toList) ∧
    (⟨⟨8, 0, 0, 0⟩, ⟨0, [8, 0, 0, 0, 8, 0, 0, 0, 1, 2, 3, 4]⟩⟩ : Signal).nullifier =
        (⟨⟨8, 0, 0, 0⟩, ⟨0, [8, 0, 0, 0, 8, 0, 0, 0, 1, 2, 3, 4]⟩⟩ : Signal).nullifier ∧
    (⟨⟨8, 0, 0, 0⟩, ⟨8, 0, 0, 0⟩, ⟨1, 2, 3, 4⟩⟩ : SemaphorePublic).nullifier =
      toyHash ((⟨zeroDigest, 0, []⟩ : SemaphoreWitness).privateKey.toList ++
        (⟨⟨8, 0, 0, 0⟩, ⟨8, 0, 0, 0⟩, ⟨1, 2, 3, 4⟩⟩ : SemaphorePublic).topic.toList) :=
  C3_nullifier_hash toyHash ⟨⟨[[(8 : F), 0, 0, 0]], 0⟩⟩ ⟨⟨[[(8 : F), 0, 0, 0]], 0⟩⟩
    zeroDigest ⟨1, 2, 3, 4⟩ 0 0 _ _ _ _ 0
    ⟨⟨8, 0, 0, 0⟩, ⟨8, 0, 0, 0⟩, ⟨1, 2, 3, 4⟩⟩ ⟨zeroDigest, 0, []⟩
    (by rfl) (by rfl) (by rfl)

/-- C4: the membership constraint walks the path from the leaf
hash (privateKey ‖ ZeroDigest), chooses ordering from the LSB-first
decomposition of the leaf index into exactly height() bits, and requires the
walk to reconstruct exactly the declared root commitment. -/
theorem C4_membership_walk (hash : List F → Digest) (leaves : List (List F))
    (h i : Nat) (sk : Digest) (pub : SemaphorePublic)
    (hlen : leaves.length = 2 ^ h) (hi : i < 2 ^ h)
    (hleaf : leaves.getD i [] = (hash (sk.toList ++ zeroDigest.toList)).toList)
    (hcon : semaphoreConstraints hash h pub ⟨sk, i, merklePathH hash h leaves i⟩) :
    (bitsLE h i).length = h ∧
    walkPath hash (hashOrNoop hash (sk.toList ++ zeroDigest.toList))
        ((bitsLE h i).zip (merklePathH hash h leaves i)) =
      merkleRootH hash h leaves ∧
    pub.merkleRoot = merkleRootH hash h leaves := by
  have hwalk : walkPath hash (hashOrNoop hash (sk.toList ++ zeroDigest.toList))
      ((bitsLE h i).zip (merklePathH hash h leaves i)) = merkleRootH hash h leaves := by
    have hstart : hashOrNoop hash (sk.toList ++ zeroDigest.toList) =
        hashOrNoop hash (leaves.getD i []) := by
      rw [hleaf, hashOrNoop_toList, hashOrNoop_key_pad]
    rw [hstart]
    exact walkPath_merklePathH hash h leaves i hlen hi
  obtain ⟨hw, -, -⟩ := constraints_membership hash h pub _ hcon
  refine ⟨bitsLE_length h i, hwalk, ?_⟩
  rw [← hw]
  exact hwalk

/-- Concrete check of the C4 membership walk on a one-member set. -/
theorem C4_membership_witness :
    (bitsLE 0 0).length = 0 ∧
    walkPath toyHash (hashOrNoop toyHash (zeroDigest.toList ++ zeroDigest.toList))
        ((bitsLE 0 0).zip (merklePathH toyHash 0 [[(8 : F), 0, 0, 0]] 0)) =
      merkleRootH toyHash 0 [[(8 : F), 0, 0, 0]] ∧
    (⟨⟨8, 0, 0, 0⟩, ⟨8, 0, 0, 0⟩, ⟨1, 2, 3, 4⟩⟩ : SemaphorePublic).merkleRoot =
      merkleRootH toyHash 0 [[(8 : F), 0, 0, 0]] :=
  C4_membership_walk toyHash [[(8 : F), 0, 0, 0]] 0 0 zeroDigest
    ⟨⟨8, 0, 0, 0⟩, ⟨8, 0, 0, 0⟩, ⟨1, 2, 3, 4⟩⟩
    (by rfl) (by decide) (by rfl) (by rfl)

/-- Evaluation of verify_signal on any cap-height-0 set: the backend is asked
to verify against root ‖ nullifier ‖ topic. -/
theorem verify_signal_cap0 (hash : List F → Digest) (a : AccessSet)
    (t : Digest) (sig : Signal) (vd : VerifierCircuitData)
    (hcap : a.tree.capHeight = 0) :
    a.verify_signal hash t sig vd =
      backendVerify vd sig.proof
        ((merkleRootH hash a.tree.height a.tree.leaves).toList ++
          sig.nullifier.toList ++ t.toList) := by
  unfold AccessSet.verify_signal AccessSet.verifierInputs
  rw [cap_of_capHeight_zero hash a.tree hcap]
  simp

/-- C5: tampering with the nullifier, verifying under a different topic, or
verifying against a set with a different root makes verify_signal fail. -/
theorem C5_tampering_rejected (hash : List F → Digest) (a a' : AccessSet)
    (sk t : Digest) (i : Nat) (sig : Signal) (vd : VerifierCircuitData)
    (hcap : a.tree.capHeight = 0) (hcap' : a'.tree.capHeight = 0)
    (hmk : a.make_signal hash sk t i = Except.ok (sig, vd)) :
    (∀ n', n' ≠ hash (sk.toList ++ t.toList) →
      a.verify_signal hash t ⟨n', sig.proof⟩ vd =
        Except.error SemErr.verification) ∧
    (∀ t', t' ≠ t →
      a.verify_signal hash t' sig vd = Except.error SemErr.verification) ∧
    (merkleRootH hash a'.tree.height a'.tree.leaves ≠
        merkleRootH hash a.tree.height a.tree.leaves →
      a'.verify_signal hash t sig vd = Except.error SemErr.verification) := by
  obtain ⟨hnull, hproof, hvd⟩ := make_signal_ok_inversion hash a sk t i sig vd hmk
  have hroot : (a.tree.cap hash).getD 0 zeroDigest =
      merkleRootH hash a.tree.height a.tree.leaves := by
    rw [cap_of_capHeight_zero hash a.tree hcap]
    rfl
  refine ⟨?_, ?_, ?_⟩
  · intro n' hn
    rw [verify_signal_cap0 hash a t _ vd hcap]
    unfold backendVerify
    rw [if_neg]
    rintro ⟨-, heq⟩
    simp only [hproof, hroot] at heq
    obtain ⟨-, h2, -⟩ := triple_append_inj heq rfl rfl
    exact hn (Digest.toList_inj h2).symm
  · intro t' ht
    rw [verify_signal_cap0 hash a t' sig vd hcap]
    unfold backendVerify
    rw [if_neg]
    rintro ⟨-, heq⟩
    simp only [hproof, hroot, hnull] at heq
    obtain ⟨-, -, h3⟩ := triple_append_inj heq rfl rfl
    exact ht (Digest.toList_inj h3.symm)
  · intro hdiff
    rw [verify_signal_cap0 hash a' t sig vd hcap']
    unfold backendVerify
    rw [if_neg]
    rintro ⟨-, heq⟩
    simp only [hproof, hroot] at heq
    obtain ⟨h1, -, -⟩ := triple_append_inj heq rfl rfl
    exact hdiff (Digest.toList_inj h1).symm

/-- Concrete check of the C5 rejections on one-member sets. -/
theorem C5_tampering_witness :
    AccessSet.make_signal toyHash ⟨⟨[[(8 : F), 0, 0, 0]], 0⟩⟩ zeroDigest
        ⟨1, 2, 3, 4⟩ 0 =
      Except.ok
        (⟨⟨8, 0, 0, 0⟩, ⟨0, [8, 0, 0, 0, 8, 0, 0, 0, 1, 2, 3, 4]⟩⟩, ⟨0⟩) ∧
    ((∀ n', n' ≠ toyHash (zeroDigest.toList ++ (⟨1, 2, 3, 4⟩ : Digest).toList) →
      AccessSet.verify_signal toyHash ⟨⟨[[(8 : F), 0, 0, 0]], 0⟩⟩ ⟨1, 2, 3, 4⟩
          ⟨n', (⟨⟨8, 0, 0, 0⟩, ⟨0, [8, 0, 0, 0, 8, 0, 0, 0, 1, 2, 3, 4]⟩⟩ : Signal).proof⟩ ⟨0⟩ =
        Except.error SemErr.verification) ∧
    (∀ t', t' ≠ (⟨1, 2, 3, 4⟩ : Digest) →
      AccessSet.verify_signal toyHash ⟨⟨[[(8 : F), 0, 0, 0]], 0⟩⟩ t'
          ⟨⟨8, 0, 0, 0⟩, ⟨0, [8, 0, 0, 0, 8, 0, 0, 0, 1, 2, 3, 4]⟩⟩ ⟨0⟩ =
        Except.error SemErr.verification) ∧
    (merkleRootH toyHash (⟨⟨[[(9 : F), 0, 0, 0]], 0⟩⟩ : AccessSet).tree.height
          (⟨⟨[[(9 : F), 0, 0, 0]], 0⟩⟩ : AccessSet).tree.leaves ≠
        merkleRootH toyHash (⟨⟨[[(8 : F), 0, 0, 0]], 0⟩⟩ : AccessSet).tree.height
          (⟨⟨[[(8 : F), 0, 0, 0]], 0⟩⟩ : AccessSet).tree.leaves →
      AccessSet.verify_signal toyHash ⟨⟨[[(9 : F), 0, 0, 0]], 0⟩⟩ ⟨1, 2, 3, 4⟩
          ⟨⟨8, 0, 0, 0⟩, ⟨0, [8, 0, 0, 0, 8, 0, 0, 0, 1, 2, 3, 4]⟩⟩ ⟨0⟩ =
        Except.error SemErr.verification)) :=
  ⟨by rfl,
    C5_tampering_rejected toyHash ⟨⟨[[(8 : F), 0, 0, 0]], 0⟩⟩
      ⟨⟨[[(9 : F), 0, 0, 0]], 0⟩⟩ zeroDigest ⟨1, 2, 3, 4⟩ 0
      ⟨⟨8, 0, 0, 0⟩, ⟨0, [8, 0, 0, 0, 8, 0, 0, 0, 1, 2, 3, 4]⟩⟩ ⟨0⟩
      (by rfl) (by rfl) (by rfl)⟩

/-- C6: constructing an AccessSet fails with InvalidSetSizeError exactly when
the number of public keys is not a power of two, and succeeds exactly when it
is. -/
theorem C6_build_power_of_two (publicKeys : List (List F)) :
    (AccessSet.build publicKeys = Except.error SemErr.invalidSetSize ↔
      ∀ k, publicKeys.length ≠ 2 ^ k) ∧
    ((∃ a, AccessSet.build publicKeys = Except.ok a) ↔
      ∃ k, publicKeys.length = 2 ^ k) := by
  unfold AccessSet.build
  by_cases hc : 2 ^ trailingZeros publicKeys.length = publicKeys.length
  · rw [if_pos hc]
    have hpow := (pow_trailingZeros_eq_iff publicKeys.length).mp hc
    constructor
    · constructor
      · intro hcontra
        exact Except.noConfusion hcontra
      · intro hall
        obtain ⟨k, hk⟩ := hpow
        exact absurd hk (hall k)
    · exact ⟨fun _ => hpow, fun _ => ⟨_, rfl⟩⟩
  · rw [if_neg hc]
    have hnp : ¬∃ k, publicKeys.length = 2 ^ k := fun he =>
      hc ((pow_trailingZeros_eq_iff publicKeys.length).mpr he)
    constructor
    · exact iff_of_true rfl (fun k hk => hnp ⟨k, hk⟩)
    · constructor
      · rintro ⟨a, ha⟩
        exact Except.noConfusion ha
      · intro he
        exact absurd he hnp

/-- C7: the path oracle (and hence make_signal) rejects an out-of-range leaf
index with IndexOutOfRangeError, and for an in-range index returns a path of
length height(). -/
theorem C7_path_range (hash : List F → Digest) (a : AccessSet) (h i : Nat)
    (sk tp : Digest)
    (hcap : a.tree.capHeight = 0) (hlen : a.tree.leaves.length = 2 ^ h) :
    (2 ^ h ≤ i →
      a.tree.prove hash i = Except.error SemErr.indexOutOfRange ∧
      a.make_signal hash sk tp i = Except.error SemErr.indexOutOfRange) ∧
    (i < 2 ^ h →
      ∃ path, a.tree.prove hash i = Except.ok path ∧
        path.length = a.tree_height) := by
  have hh : a.tree.height = h := by
    unfold MerkleTree.height
    rw [hlen, trailingZeros_two_pow]
  constructor
  · intro hge
    refine ⟨?_, make_signal_out_of_range hash a sk tp i (by omega)⟩
    unfold MerkleTree.prove
    rw [if_neg (by omega)]
  · intro hlt
    refine ⟨merklePathH hash h a.tree.leaves i, ?_, ?_⟩
    · unfold MerkleTree.prove
      rw [if_pos (by omega), hh, hcap, Nat.sub_zero,
        List.take_of_length_le (le_of_eq (merklePathH_length hash h a.tree.leaves i))]
    · exact (merklePathH_length hash h a.tree.leaves i).trans hh.symm

/-- Concrete check of the C7 range behaviour on a one-member set. -/
theorem C7_path_range_witness :
    (2 ^ 0 ≤ 1 →
      (⟨⟨[[(8 : F), 0, 0, 0]], 0⟩⟩ : AccessSet).tree.prove toyHash 1 =
          Except.error SemErr.indexOutOfRange ∧
      AccessSet.make_signal toyHash ⟨⟨[[(8 : F), 0, 0, 0]], 0⟩⟩ zeroDigest
          ⟨1, 2, 3, 4⟩ 1 = Except.error SemErr.indexOutOfRange) ∧
    (1 < 2 ^ 0 →
      ∃ path, (⟨⟨[[(8 : F), 0, 0, 0]], 0⟩⟩ : AccessSet).tree.prove toyHash 1 =
          Except.ok path ∧
        path.length = (⟨⟨[[(8 : F), 0, 0, 0]], 0⟩⟩ : AccessSet).tree_height) :=
  C7_path_range toyHash ⟨⟨[[(8 : F), 0, 0, 0]], 0⟩⟩ 0 1 zeroDigest ⟨1, 2, 3, 4⟩
    (by rfl) (by rfl)

/-- C8: tree_height returns the base-two logarithm of the leaf count and is a
pure function of the number of leaves the set was built from. -/
theorem C8_tree_height_log2 (a b : AccessSet) (h : Nat)
    (hlen : a.tree.leaves.length = 2 ^ h)
    (heq : a.tree.leaves.length = b.tree.leaves.length) :
    a.tree_height = h ∧
    a.tree_height = Nat.log2 a.tree.leaves.length ∧
    b.tree_height = a.tree_height := by
  have h1 : a.tree_height = h := by
    unfold AccessSet.tree_height MerkleTree.height
    rw [hlen, trailingZeros_two_pow]
  refine ⟨h1, ?_, ?_⟩
  · rw [h1, hlen, log2_two_pow]
  · unfold AccessSet.tree_height MerkleTree.height
    rw [heq]

/-- Concrete check of C8 on two four-leaf sets with different leaf data and
cap heights but the same leaf count. -/
theorem C8_tree_height_witness :
    (⟨⟨[[], [], [], []], 0⟩⟩ : AccessSet).tree_height = 2 ∧
    (⟨⟨[[], [], [], []], 0⟩⟩ : AccessSet).tree_height =
      Nat.log2 (⟨⟨[[], [], [], []], 0⟩⟩ : AccessSet).tree.leaves.length ∧
    (⟨⟨[[(1 : F)], [2], [3], [4]], 7⟩⟩ : AccessSet).tree_height =
      (⟨⟨[[], [], [], []], 0⟩⟩ : AccessSet).tree_height :=
  C8_tree_height_log2 ⟨⟨[[], [], [], []], 0⟩⟩ ⟨⟨[[(1 : F)], [2], [3], [4]], 7⟩⟩ 2
    (by rfl) (by rfl)

/-- C9: make_signal and verify_signal are pure, deterministic functions of
their inputs plus the immutable tree data: equal trees give equal results,
repeated invocations agree (so repeating a failed call returns the same
error), and verify_signal reads the set only through its cap. -/
theorem C9_pure_deterministic (hash : List F → Digest) (a b c d : AccessSet)
    (sk t : Digest) (i : Nat) (sig : Signal) (vd : VerifierCircuitData)
    (r1 r2 : Except SemErr (Signal × VerifierCircuitData))
    (htree : a.tree = b.tree)
    (hcap : c.tree.cap hash = d.tree.cap hash)
    (h1 : a.make_signal hash sk t i = r1)
    (h2 : a.make_signal hash sk t i = r2) :
    a.make_signal hash sk t i = b.make_signal hash sk t i ∧
    r1 = r2 ∧
    c.verify_signal hash t sig vd = d.verify_signal hash t sig vd := by
  refine ⟨?_, by rw [← h1, ← h2], ?_⟩
  · simp only [AccessSet.make_signal, AccessSet.tree_height]
    rw [htree]
  · unfold AccessSet.verify_signal AccessSet.verifierInputs
    rw [hcap]

/-- Concrete check of C9 determinism on a one-member set. -/
theorem C9_pure_deterministic_witness :
    AccessSet.make_signal toyHash ⟨⟨[[(8 : F), 0, 0, 0]], 0⟩⟩ zeroDigest
        ⟨1, 2, 3, 4⟩ 0 =
      AccessSet.make_signal toyHash ⟨⟨[[(8 : F), 0, 0, 0]], 0⟩⟩ zeroDigest
        ⟨1, 2, 3, 4⟩ 0 ∧
    (Except.ok
        ((⟨⟨8, 0, 0, 0⟩, ⟨0, [8, 0, 0, 0, 8, 0, 0, 0, 1, 2, 3, 4]⟩⟩ : Signal),
          (⟨0⟩ : VerifierCircuitData)) :
        Except SemErr (Signal × VerifierCircuitData)) =
      (Except.ok
        ((⟨⟨8, 0, 0, 0⟩, ⟨0, [8, 0, 0, 0, 8, 0, 0, 0, 1, 2, 3, 4]⟩⟩ : Signal),
          (⟨0⟩ : VerifierCircuitData)) :
        Except SemErr (Signal × VerifierCircuitData)) ∧
    AccessSet.verify_signal toyHash ⟨⟨[[(8 : F), 0, 0, 0]], 0⟩⟩ ⟨1, 2, 3, 4⟩
        ⟨⟨8, 0, 0, 0⟩, ⟨0, [8, 0, 0, 0, 8, 0, 0, 0, 1, 2, 3, 4]⟩⟩ ⟨0⟩ =
      AccessSet.verify_signal toyHash ⟨⟨[[(8 : F), 0, 0, 0]], 0⟩⟩ ⟨1, 2, 3, 4⟩
        ⟨⟨8, 0, 0, 0⟩, ⟨0, [8, 0, 0, 0, 8, 0, 0, 0, 1, 2, 3, 4]⟩⟩ ⟨0⟩ :=
  C9_pure_deterministic toyHash ⟨⟨[[(8 : F), 0, 0, 0]], 0⟩⟩
    ⟨⟨[[(8 : F), 0, 0, 0]], 0⟩⟩ ⟨⟨[[(8 : F), 0, 0, 0]], 0⟩⟩
    ⟨⟨[[(8 : F), 0, 0, 0]], 0⟩⟩ zeroDigest ⟨1, 2, 3, 4⟩ 0
    ⟨⟨8, 0, 0, 0⟩, ⟨0, [8, 0, 0, 0, 8, 0, 0, 0, 1, 2, 3, 4]⟩⟩ ⟨0⟩
    (Except.ok
      ((⟨⟨8, 0, 0, 0⟩, ⟨0, [8, 0, 0, 0, 8, 0, 0, 0, 1, 2, 3, 4]⟩⟩ : Signal),
        (⟨0⟩ : VerifierCircuitData)))
    (Except.ok
      ((⟨⟨8, 0, 0, 0⟩, ⟨0, [8, 0, 0, 0, 8, 0, 0, 0, 1, 2, 3, 4]⟩⟩ : Signal),
        (⟨0⟩ : VerifierCircuitData)))
    (by rfl) (by rfl) (by rfl) (by rfl)

/-- C10: at cap height 0 the cap is exactly one digest, so index 0 into the
cap is in bounds, and the verifier's flattened root segment is exactly the
four elements of that digest, which is the root the prover witnesses; at cap
height at least 1 the two root segments disagree. -/
theorem C10_cap_root_segment (hash : List F → Digest) (t : MerkleTree) :
    (t.capHeight = 0 →
      (t.cap hash).length = 1 ∧
      (t.cap hash).getD 0 zeroDigest = merkleRootH hash t.height t.leaves ∧
      ((t.cap hash).map Digest.toList).flatten =
        ((t.cap hash).getD 0 zeroDigest).toList) ∧
    (1 ≤ t.capHeight →
      ((t.cap hash).map Digest.toList).flatten ≠
        ((t.cap hash).getD 0 zeroDigest).toList) := by
  constructor
  · intro hcap
    rw [cap_of_capHeight_zero hash t hcap]
    exact ⟨rfl, rfl, by simp⟩
  · intro hcap heq
    have hlen := congrArg List.length heq
    rw [flatten_toList_length] at hlen
    have hc : (t.cap hash).length = 2 ^ t.capHeight := by
      unfold MerkleTree.cap
      exact merkleCapH_length hash t.capHeight t.height t.leaves
    have hrhs : (((t.cap hash).getD 0 zeroDigest).toList).length = 4 := rfl
    rw [hc, hrhs] at hlen
    have h2 : 2 ≤ 2 ^ t.capHeight := by
      calc (2 : Nat) = 2 ^ 1 := rfl
        _ ≤ 2 ^ t.capHeight := Nat.pow_le_pow_right (by omega) hcap
    omega

/-- Concrete check of C10 on a cap-height-0 and a cap-height-1 tree. -/
theorem C10_cap_root_witness :
    (((⟨[[(8 : F), 0, 0, 0]], 0⟩ : MerkleTree).cap toyHash).length = 1 ∧
      ((⟨[[(8 : F), 0, 0, 0]], 0⟩ : MerkleTree).cap toyHash).getD 0 zeroDigest =
        merkleRootH toyHash (⟨[[(8 : F), 0, 0, 0]], 0⟩ : MerkleTree).height
          (⟨[[(8 : F), 0, 0, 0]], 0⟩ : MerkleTree).leaves ∧
      (((⟨[[(8 : F), 0, 0, 0]], 0⟩ : MerkleTree).cap toyHash).map Digest.toList).flatten =
        (((⟨[[(8 : F), 0, 0, 0]], 0⟩ : MerkleTree).cap toyHash).getD 0 zeroDigest).toList) ∧
    ((((⟨[[(1 : F)], [2]], 1⟩ : MerkleTree).cap toyHash).map Digest.toList).flatten ≠
      (((⟨[[(1 : F)], [2]], 1⟩ : MerkleTree).cap toyHash).getD 0 zeroDigest).toList) :=
  ⟨(C10_cap_root_segment toyHash ⟨[[(8 : F), 0, 0, 0]], 0⟩).1 rfl,
    (C10_cap_root_segment toyHash ⟨[[(1 : F)], [2]], 1⟩).2 (by decide)⟩

end Semaphore
